import Mathlib

set_option linter.unusedVariables false

namespace TwitterTelegramBot

/- Shallow embedding of src/app.py, the current revision of the
   twitter-telegram bot.  HTTP, filesystem and Telegram I/O are modelled by
   an oracle giving the outcomes of the external calls, and by an event
   trace recording the observable actions of one check-and-forward cycle.
   A Python KeyError raised by a dict subscript is modelled by the
   exception type PyErr flowing through Except.  Python sets of tweet-id
   strings are modelled as duplicate-free lists built by membership-checked
   insertion; all set-level claims are stated through membership, so the
   model's list order never matters. -/

/-- Python whitespace class, as matched by the regex class backslash-s in
clean_tweet_text (space, tab, newline, carriage return, vertical tab, form feed). -/
def isPySpace (c : Char) : Bool :=
  c == ' ' || c == '\t' || c == '\n' || c == '\r' || c == '\x0b' || c == '\x0c'

/-- Strip a literal character-list from the front of a list, returning the rest. -/
def dropLit : List Char → List Char → Option (List Char)
  | [], rest => some rest
  | _ :: _, [] => none
  | p :: ps, c :: cs => if c == p then dropLit ps cs else none

/-- One re.sub pass replacing every non-overlapping match of `lit` followed
by one or more non-space characters by the empty string, scanning left to
right (the Python patterns http and pic.twitter.com slash are both of this
shape, with a greedy one-or-more tail).  The fuel argument only bounds the
recursion; any fuel at least the length of the input gives the scan's result. -/
def reSubGreedyF (lit : List Char) : Nat → List Char → List Char
  | 0, l => l
  | _ + 1, [] => []
  | n + 1, c :: cs =>
    match dropLit lit (c :: cs) with
    | some (r :: rs) =>
      if isPySpace r then c :: reSubGreedyF lit n cs
      else reSubGreedyF lit n (rs.dropWhile (fun d => !isPySpace d))
    | some [] => c :: reSubGreedyF lit n cs
    | none => c :: reSubGreedyF lit n cs

def reSubGreedy (lit l : List Char) : List Char :=
  reSubGreedyF lit l.length l

/-- Collapse each maximal run of whitespace into a single space
(the re.sub of one-or-more whitespace by a single space): a whitespace
character is dropped when followed by more whitespace, and becomes the
run's single space otherwise. -/
def collapseWs : List Char → List Char
  | [] => []
  | [c] => if isPySpace c then [' '] else [c]
  | c :: d :: cs =>
    if isPySpace c then
      if isPySpace d then collapseWs (d :: cs) else ' ' :: collapseWs (d :: cs)
    else c :: collapseWs (d :: cs)

/-- Python str.strip: remove leading and trailing whitespace. -/
def stripChars (l : List Char) : List Char :=
  ((l.dropWhile isPySpace).reverse.dropWhile isPySpace).reverse

/-- clean_tweet_text from src/app.py lines 194-198: drop http URLs, drop
pic.twitter.com shorthand, collapse whitespace, strip. -/
def clean_tweet_text (s : String) : String :=
  ⟨stripChars (collapseWs (reSubGreedy "pic.twitter.com/".data
    (reSubGreedy "http".data s.data)))⟩

/- ------------------------------------------------------------------ -/
/- Python string sets.  A set of id strings is a duplicate-free list; add
   is membership-checked insertion, and Python max over the set is a fold
   with the lexicographic comparison used by Python string less-than,
   implemented structurally (lexLtB) and related to Mathlib's String order
   by lexLtB_iff_lt below. -/

/-- Structural lexicographic less-than on character lists, comparing code
points, exactly Python string comparison. -/
def lexLtB : List Char → List Char → Bool
  | [], [] => false
  | [], _ :: _ => true
  | _ :: _, [] => false
  | a :: as, b :: bs =>
    if a < b then true else if b < a then false else lexLtB as bs

/-- Python's binary max on strings: the right argument wins only when
strictly greater, as in max's scan. -/
def pyMax2 (a b : String) : String := if lexLtB a.data b.data then b else a

/-- Python max over a non-empty iterable of strings: scan keeping the
greatest so far. -/
def listMaxStr : List String → Option String
  | [] => none
  | x :: xs => some (xs.foldl pyMax2 x)

/-- Python set.add on the list model of a string set. -/
def pySetAdd (s : List String) (x : String) : List String :=
  if x ∈ s then s else s ++ [x]

/- ------------------------------------------------------------------ -/
/- Upstream JSON payloads (Twitter API v2 response shapes used by the bot). -/

/-- One entry of a video's variants list; bit_rate and url keys are optional. -/
structure Variant where
  bit_rate : Option Nat
  url : Option String
  deriving DecidableEq, Repr

/-- One entry of the includes.media side table. `mtype` models the json
key named type. -/
structure Media where
  media_key : String
  mtype : String
  url : Option String
  variants : Option (List Variant)
  deriving DecidableEq, Repr

/-- One entry of a tweet's referenced_tweets list. `rtype` models the json
key named type. -/
structure RefTweet where
  rtype : String
  deriving DecidableEq, Repr

/-- One raw post of the fetched page.  `attachments` is the media_keys
list when the attachments key is present. -/
structure Tweet where
  id : String
  text : String
  referenced_tweets : Option (List RefTweet)
  attachments : Option (List String)
  deriving DecidableEq, Repr

/-- The json body returned by the recent-tweets endpoint: the data list
(absent when there are no new posts) and the includes.media side table. -/
structure Page where
  data : Option (List Tweet)
  includes_media : Option (List Media)
  deriving DecidableEq, Repr

/-- A resolved media asset: a type tag (photo or video) and a source url. -/
structure MediaUrl where
  mtype : String
  url : String
  deriving DecidableEq, Repr

/-- The dict returned by process_tweet for a forwardable post. -/
structure ForwardablePost where
  id : String
  text : String
  media_urls : List MediaUrl
  deriving DecidableEq, Repr

/-- Python exceptions that the embedded code can raise. -/
inductive PyErr where
  | keyError
  deriving DecidableEq, Repr

/-- Python truthiness of an optional string: None and the empty string are falsy. -/
def pyStrTruthy : Option String → Bool
  | none => false
  | some s => !(s == "")

/- ------------------------------------------------------------------ -/
/- Media Resolver (src/app.py lines 200-253). -/

/-- is_retweet from src/app.py lines 200-206. -/
def is_retweet (t : Tweet) : Bool :=
  match t.referenced_tweets with
  | some refs => refs.any (fun r => r.rtype == "retweeted")
  | none => false

/-- One iteration of the variants loop of process_tweet (src/app.py lines
233-238), acting on the accumulator (best_bitrate, best_url).  Reading the
url key of a variant that declares a bit_rate but carries no url raises
KeyError, exactly as the Python subscript would. -/
def bestVariantStep (acc : Nat × Option String) (v : Variant) :
    Except PyErr (Nat × Option String) :=
  match v.bit_rate with
  | some br =>
    if acc.1 < br then
      match v.url with
      | some u => .ok (br, some u)
      | none => .error .keyError
    else if v.url.isSome && !(pyStrTruthy acc.2) then .ok (acc.1, v.url)
    else .ok acc
  | none =>
    if v.url.isSome && !(pyStrTruthy acc.2) then .ok (acc.1, v.url)
    else .ok acc

/-- The variants loop as explicit recursion over the list, threading the
accumulator and stopping at the first raised exception. -/
def bestVariantFold (acc : Nat × Option String) :
    List Variant → Except PyErr (Nat × Option String)
  | [] => .ok acc
  | v :: vs =>
    match bestVariantStep acc v with
    | .error e => .error e
    | .ok acc2 => bestVariantFold acc2 vs

/-- The whole variants loop: best_bitrate starts at 0 and best_url at None;
the selected url is the final best_url. -/
def bestVideoUrl (variants : List Variant) : Except PyErr (Option String) :=
  match bestVariantFold (0, none) variants with
  | .error e => .error e
  | .ok acc => .ok acc.2

/-- The inner media-table loop of process_tweet for one media key
(src/app.py lines 221-244): photos append their url (raising KeyError if
the url key is missing), videos append the best variant url when it is truthy. -/
def mediaFor (tbl : List Media) (key : String) (acc : List MediaUrl) :
    Except PyErr (List MediaUrl) :=
  tbl.foldlM (fun acc2 m =>
    if m.media_key == key then
      if m.mtype == "photo" then
        match m.url with
        | some u => .ok (acc2 ++ [⟨"photo", u⟩])
        | none => .error .keyError
      else if m.mtype == "video" then
        match bestVideoUrl (m.variants.getD []) with
        | .error e => .error e
        | .ok (some u) =>
          if u == "" then .ok acc2 else .ok (acc2 ++ [⟨"video", u⟩])
        | .ok none => .ok acc2
      else .ok acc2
    else .ok acc2) acc

/-- process_tweet from src/app.py lines 208-253: None for retweets, None
when no media resolves, otherwise the id, cleaned text and resolved assets. -/
def process_tweet (t : Tweet) (page : Page) : Except PyErr (Option ForwardablePost) :=
  if is_retweet t then .ok none
  else
    let text := clean_tweet_text t.text
    match (match t.attachments, page.includes_media with
           | some keys, some tbl => keys.foldlM (fun acc key => mediaFor tbl key acc) []
           | _, _ => .ok []) with
    | .error e => .error e
    | .ok media_urls =>
      if media_urls.isEmpty then .ok none
      else .ok (some ⟨t.id, text, media_urls⟩)

/- ------------------------------------------------------------------ -/
/- Dedup Store (src/app.py lines 85-108).  The backing file is modelled as
   the list of its (already newline-stripped) lines, the loaded set as a
   duplicate-free list. -/

/-- load_processed_tweets, src/app.py lines 85-98: the set of non-empty
lines of the data file. -/
def load_processed_tweets (file : List String) : List String :=
  file.foldl (fun s line => if line = "" then s else pySetAdd s line) []

/-- The watermark of src/app.py line 292:
max(processed_tweets) if processed_tweets else None, Python max comparing
strings lexicographically. -/
def since_id_of (processed : List String) : Option String :=
  if processed.isEmpty then none else listMaxStr processed

/-- The since_id actually placed in the request parameters by
get_recent_tweets (src/app.py lines 144-147): the parameter is added only
when since_id is truthy. -/
def effSince : Option String → Option String
  | some s => if s = "" then none else some s
  | none => none

/- ------------------------------------------------------------------ -/
/- Single-Flight Orchestrator (src/app.py lines 266-346). -/

/-- The observable actions of one cycle, in order of occurrence. -/
inductive Event where
  | fetchUser (username : String)
  | fetchTweets (userId : String) (sinceId : Option String)
  | download (url : String) (filename : String)
  | send (tweetId : String) (idx : Nat) (url : String)
      (caption : Option String) (isPhoto : Bool)
  | removeFile (filename : String)
  | sleep (secs : Nat)
  | saveStore (ids : List String)
  | cleanupTemp
  deriving DecidableEq, Repr

/-- Outcomes of the external calls a cycle makes: the user-id lookup
result (None models both a lookup failure and an unknown handle), the
recent-tweets fetch result as a function of the since_id parameter that
the request carries (None models errors and missing bodies), and per-url
download success. -/
structure Oracle where
  userId : Option String
  fetch : Option String → Option Page
  downloadOk : String → Bool

/-- The state shared across cycles: the lock file's existence and the
dedup store (the lines of data/processed_tweets.txt). -/
structure World where
  lock : Bool
  file : List String
  deriving DecidableEq, Repr

deriving instance DecidableEq for Except

/-- One cycle's outcome: the Python return value (or a propagated
exception), the final shared state, and the event trace. -/
structure CycleResult where
  ret : Except PyErr Nat
  world : World
  trace : List Event
  deriving DecidableEq, Repr

/-- The handle the bot is configured to poll. -/
def TWITTER_TARGET_USER : String := "AboutNodKrai"

/-- The tweet loop of src/app.py lines 300-308: tweets whose id is already
in the loaded set are skipped; the others are run through process_tweet
(an exception aborts the cycle here), forwardable results are collected in
page order, and every inspected id is added to the newly-processed set
(which starts as a copy of the loaded set). -/
def collectTweets (page : Page) (processed : List String) (newly : List String) :
    List Tweet → Except PyErr (List ForwardablePost × List String)
  | [] => .ok ([], newly)
  | t :: ts =>
    if t.id ∈ processed then collectTweets page processed newly ts
    else
      match process_tweet t page with
      | .error e => .error e
      | .ok r =>
        let newly2 := pySetAdd newly t.id
        match r with
        | some fp =>
          match collectTweets page processed newly2 ts with
          | .error e => .error e
          | .ok (fps, n) => .ok (fp :: fps, n)
        | none => collectTweets page processed newly2 ts

/-- The per-asset loop of src/app.py lines 314-330, for assets of one post
starting at index i: download to a deterministic temp name; on success
send (caption only on the first asset of the post), remove the temp file,
and sleep one second. -/
def sendAssets (o : Oracle) (tid : String) (caption : String) :
    Nat → List MediaUrl → List Event
  | _, [] => []
  | i, m :: ms =>
    let ext := if m.mtype == "video" then ".mp4" else ".jpg"
    let fname := "temp_" ++ tid ++ "_" ++ toString i ++ ext
    Event.download m.url fname ::
      ((if o.downloadOk m.url then
          [Event.send tid i m.url (if i = 0 then some caption else none)
             (m.mtype == "photo"),
           Event.removeFile fname, Event.sleep 1]
        else []) ++ sendAssets o tid caption (i + 1) ms)

/-- The oldest-first post loop of src/app.py lines 310-332 (its argument
is the reversed new_tweets list); a two second sleep follows each post. -/
def sendLoop (o : Oracle) : List ForwardablePost → List Event
  | [] => []
  | fp :: rest =>
    sendAssets o fp.id fp.text 0 fp.media_urls ++ [Event.sleep 2] ++ sendLoop o rest

/-- The body of check_and_forward_tweets inside the try block (src/app.py
lines 281-338), run with the lock held: returns the Python result (count
or propagated exception), the resulting data file, and the events. -/
def runBody (o : Oracle) (file : List String) :
    Except PyErr Nat × List String × List Event :=
  let processed := load_processed_tweets file
  match o.userId with
  | none => (.ok 0, file, [Event.fetchUser TWITTER_TARGET_USER])
  | some uid =>
    if uid = "" then (.ok 0, file, [Event.fetchUser TWITTER_TARGET_USER])
    else
      let since_id := since_id_of processed
      let eff := effSince since_id
      let ev2 := [Event.fetchUser TWITTER_TARGET_USER, Event.fetchTweets uid eff]
      match o.fetch eff with
      | none => (.ok 0, file, ev2)
      | some page =>
        match page.data with
        | none => (.ok 0, file, ev2)
        | some tweets =>
          match collectTweets page processed processed tweets with
          | .error e => (.error e, file, ev2)
          | .ok (fps, newly) =>
            let sendEvents := sendLoop o fps.reverse
            if fps.isEmpty then (.ok fps.length, file, ev2 ++ sendEvents)
            else (.ok fps.length, newly, ev2 ++ sendEvents ++ [Event.saveStore newly])

/-- check_and_forward_tweets from src/app.py lines 266-346: the exclusive
lock-file creation fails closed when the lock exists; otherwise the body
runs and — via the finally clause, on success, exception and early return
alike — the lock file is removed and stale temp files are purged. -/
def check_and_forward_tweets (o : Oracle) (w : World) : CycleResult :=
  if w.lock then ⟨.ok 0, w, []⟩
  else
    let r := runBody o w.file
    ⟨r.1, ⟨false, r.2.1⟩, r.2.2 ++ [Event.cleanupTemp]⟩

/- ------------------------------------------------------------------ -/
/- Upstream Client retry behaviour (src/app.py lines 110-162).  The HTTP
   layer is modelled as the finite stream of responses the server returns
   to the successive attempts; the cycle model above abstracts these two
   functions by the Oracle's eventual results. -/

/-- A response to the user-lookup request: a rate limit signal, a body
(whose data.id is v, None when the data key is absent), or any other
error (connection failure, non-2xx status, malformed json). -/
inductive UResp where
  | rate
  | ok (v : Option String)
  | exc
  deriving DecidableEq

/-- A response to the recent-tweets request. -/
inductive FResp where
  | rate
  | ok (p : Page)
  | exc
  deriving DecidableEq

/-- Observable actions of the upstream client. -/
inductive REvent where
  | requestUser (name : String)
  | requestTweets (uid : String) (since : Option String)
  | sleep (secs : Nat)
  deriving DecidableEq, Repr

/-- get_user_id from src/app.py lines 110-129 driven by a response
stream: a 429 sleeps 900 seconds and retries the identical request; any
other error yields None; an exhausted stream stands for a run cut off
while still rate limited. -/
def get_user_id (name : String) : List UResp → List REvent × Option String
  | [] => ([], none)
  | UResp.rate :: rs =>
    let r := get_user_id name rs
    (REvent.requestUser name :: REvent.sleep 900 :: r.1, r.2)
  | UResp.ok v :: _ => ([REvent.requestUser name], v)
  | UResp.exc :: _ => ([REvent.requestUser name], none)

/-- get_recent_tweets from src/app.py lines 131-162 driven by a response
stream: the request carries the since_id parameter only when it is truthy,
a 429 sleeps 900 seconds and retries the identical request, and any other
error yields None. -/
def get_recent_tweets (uid : String) (since_id : Option String) :
    List FResp → List REvent × Option Page
  | [] => ([], none)
  | FResp.rate :: rs =>
    let r := get_recent_tweets uid since_id rs
    (REvent.requestTweets uid (effSince since_id) :: REvent.sleep 900 :: r.1, r.2)
  | FResp.ok p :: _ => ([REvent.requestTweets uid (effSince since_id)], some p)
  | FResp.exc :: _ => ([REvent.requestTweets uid (effSince since_id)], none)

/- ------------------------------------------------------------------ -/
/- Observation helpers over traces, and small facts about the model. -/

/-- Recognise send events in a trace. -/
def isSendEvent : Event → Bool
  | .send _ _ _ _ _ => true
  | _ => false

/-- The send events of a trace, in order. -/
def sends (tr : List Event) : List Event := tr.filter isSendEvent

/-- The tweet id carried by a send event. -/
def sendTweetId : Event → String
  | .send tid _ _ _ _ => tid
  | _ => ""

/-- The tweet ids of a trace's send events, in order. -/
def sendIds (tr : List Event) : List String := (sends tr).map sendTweetId

/-- Recognise the send event of one specific media asset, identified by
the post id and the asset index within the post. -/
def isSendOf (tid : String) (j : Nat) : Event → Bool
  | .send t i _ _ _ => t == tid && i == j
  | _ => false

/-- How many times one media asset is sent in a trace. -/
def countAsset (tr : List Event) (tid : String) (j : Nat) : Nat :=
  tr.countP (isSendOf tid j)

/-- The forwardable-post value a tweet resolves to (None when filtered
out or when resolution raises). -/
def fpOf (page : Page) (t : Tweet) : Option ForwardablePost :=
  match process_tweet t page with
  | .ok v => v
  | .error _ => none

/-- The media assets a tweet resolves to. -/
def resolvedAssets (t : Tweet) (page : Page) : List MediaUrl :=
  match fpOf page t with
  | some fp => fp.media_urls
  | none => []

theorem process_tweet_id {t : Tweet} {page : Page} {fp : ForwardablePost}
    (h : process_tweet t page = .ok (some fp)) : fp.id = t.id := by
  unfold process_tweet at h
  split at h
  · simp at h
  · split at h
    · simp at h
    · split at h
      · simp at h
      · simp only [Except.ok.injEq, Option.some.injEq] at h
        rw [← h]

/- Branch lemmas for runBody, one per exit path of the cycle body. -/

theorem runBody_noUser {o : Oracle} (f : List String) (hu : o.userId = none) :
    runBody o f = (.ok 0, f, [Event.fetchUser TWITTER_TARGET_USER]) := by
  simp [runBody, hu]

theorem runBody_emptyUser {o : Oracle} (f : List String) (hu : o.userId = some "") :
    runBody o f = (.ok 0, f, [Event.fetchUser TWITTER_TARGET_USER]) := by
  simp [runBody, hu]

theorem runBody_noFetch {o : Oracle} {uid : String} (f : List String)
    (hu : o.userId = some uid) (he : uid ≠ "")
    (hf : o.fetch (effSince (since_id_of (load_processed_tweets f))) = none) :
    runBody o f = (.ok 0, f,
      [Event.fetchUser TWITTER_TARGET_USER,
       Event.fetchTweets uid (effSince (since_id_of (load_processed_tweets f)))]) := by
  simp [runBody, hu, he, hf]

theorem runBody_noData {o : Oracle} {uid : String} {p : Page} (f : List String)
    (hu : o.userId = some uid) (he : uid ≠ "")
    (hf : o.fetch (effSince (since_id_of (load_processed_tweets f))) = some p)
    (hd : p.data = none) :
    runBody o f = (.ok 0, f,
      [Event.fetchUser TWITTER_TARGET_USER,
       Event.fetchTweets uid (effSince (since_id_of (load_processed_tweets f)))]) := by
  simp [runBody, hu, he, hf, hd]

theorem runBody_collectError {o : Oracle} {uid : String} {p : Page}
    {tweets : List Tweet} {e : PyErr} (f : List String)
    (hu : o.userId = some uid) (he : uid ≠ "")
    (hf : o.fetch (effSince (since_id_of (load_processed_tweets f))) = some p)
    (hd : p.data = some tweets)
    (hc : collectTweets p (load_processed_tweets f) (load_processed_tweets f) tweets
      = .error e) :
    runBody o f = (.error e, f,
      [Event.fetchUser TWITTER_TARGET_USER,
       Event.fetchTweets uid (effSince (since_id_of (load_processed_tweets f)))]) := by
  simp [runBody, hu, he, hf, hd, hc]

theorem runBody_collectOk {o : Oracle} {uid : String} {p : Page}
    {tweets : List Tweet} {fps : List ForwardablePost} {newly : List String}
    (f : List String)
    (hu : o.userId = some uid) (he : uid ≠ "")
    (hf : o.fetch (effSince (since_id_of (load_processed_tweets f))) = some p)
    (hd : p.data = some tweets)
    (hc : collectTweets p (load_processed_tweets f) (load_processed_tweets f) tweets
      = .ok (fps, newly)) :
    runBody o f = (.ok fps.length, (if fps.isEmpty then f else newly),
      ([Event.fetchUser TWITTER_TARGET_USER,
        Event.fetchTweets uid (effSince (since_id_of (load_processed_tweets f)))]
        ++ sendLoop o fps.reverse)
        ++ (if fps.isEmpty then [] else [Event.saveStore newly])) := by
  simp only [runBody, hu, he, hf, hd, hc]
  by_cases hE : fps = [] <;> simp [hE, sendLoop]

/- Set-model inclusion facts. -/

theorem pySetAdd_subset {s : List String} {x y : String} (h : x ∈ s) :
    x ∈ pySetAdd s y := by
  unfold pySetAdd
  split
  · exact h
  · exact List.mem_append_left _ h

theorem load_subset {f : List String} : ∀ x ∈ load_processed_tweets f, x ∈ f := by
  unfold load_processed_tweets
  suffices h : ∀ (s : List String) (acc : List String),
      (∀ y ∈ acc, y ∈ f) → (∀ y ∈ s, y ∈ f) →
      ∀ x ∈ s.foldl (fun a line => if line = "" then a else pySetAdd a line) acc, x ∈ f by
    intro x hx
    exact h f [] (by simp) (fun y hy => hy) x hx
  intro s
  induction s with
  | nil => intro acc hacc _ x hx; exact hacc x hx
  | cons a as ih =>
    intro acc hacc hs x hx
    simp only [List.foldl_cons] at hx
    refine ih _ ?_ (fun y hy => hs y (List.mem_cons_of_mem _ hy)) x hx
    intro y hy
    by_cases ha : a = ""
    · rw [if_pos ha] at hy; exact hacc y hy
    · rw [if_neg ha] at hy
      unfold pySetAdd at hy
      split at hy
      · exact hacc y hy
      · rcases List.mem_append.mp hy with h1 | h1
        · exact hacc y h1
        · simp at h1; subst h1; exact hs y (List.mem_cons_self _ _)

theorem collect_newly_superset {page : Page} {processed : List String} :
    ∀ {ts : List Tweet} {newly : List String} {fps : List ForwardablePost}
      {res : List String},
    collectTweets page processed newly ts = .ok (fps, res) →
    ∀ x ∈ newly, x ∈ res := by
  intro ts
  induction ts with
  | nil =>
    intro newly fps res h x hx
    simp only [collectTweets, Except.ok.injEq, Prod.mk.injEq] at h
    rw [← h.2]; exact hx
  | cons t ts ih =>
    intro newly fps res h x hx
    simp only [collectTweets] at h
    split at h
    · exact ih h x hx
    · split at h
      · cases h
      · split at h
        · split at h
          · cases h
          · rename_i heq
            simp only [Except.ok.injEq, Prod.mk.injEq] at h
            rw [← h.2]
            exact ih heq x (pySetAdd_subset hx)
        · exact ih h x (pySetAdd_subset hx)

/- ------------------------------------------------------------------ -/
/- Claim C2: execution-lock lifecycle. -/

/-- C2: if the execution lock is already held when a cycle starts, the
cycle returns zero immediately, performs no upstream call (empty trace)
and leaves the world — dedup store included — untouched; and whenever the
lock is free at cycle start (so the cycle acquires it), the lock is
released by cycle end on every exit path. -/
theorem lock_lifecycle (o : Oracle) (w : World) :
    (w.lock = true → check_and_forward_tweets o w = ⟨.ok 0, w, []⟩) ∧
    (w.lock = false → (check_and_forward_tweets o w).world.lock = false) := by
  constructor
  · intro h
    simp [check_and_forward_tweets, h]
  · intro h
    simp [check_and_forward_tweets, h]

/-- Witness for lock_lifecycle at concrete worlds, one with the lock held
and one with it free. -/
theorem lock_lifecycle_witness :
    check_and_forward_tweets ⟨none, fun _ => none, fun _ => true⟩ ⟨true, ["5"]⟩ =
      ⟨.ok 0, ⟨true, ["5"]⟩, []⟩ ∧
    (check_and_forward_tweets ⟨none, fun _ => none, fun _ => true⟩
      ⟨false, ["5"]⟩).world.lock = false :=
  ⟨(lock_lifecycle ⟨none, fun _ => none, fun _ => true⟩ ⟨true, ["5"]⟩).1 rfl,
   (lock_lifecycle ⟨none, fun _ => none, fun _ => true⟩ ⟨false, ["5"]⟩).2 rfl⟩

/- ------------------------------------------------------------------ -/
/- Claim C3: exception containment.  The try block of src/app.py lines
   281-346 has a finally clause but no except clause, so an exception
   raised by the body propagates to the caller. -/

/-- C3 counterexample: a concrete cycle — lock free, user id resolved,
one non-retweet tweet whose attached photo media carries no url key —
raises KeyError inside the body, and the cycle's outcome is that
exception, not an ok-zero result: the claim that the cycle function
catches every body exception and returns zero is false on this input. -/
theorem exception_propagates_cex :
    (check_and_forward_tweets
      ⟨some "u", fun _ => some ⟨some [⟨"1", "t", none, some ["k1"]⟩],
                                some [⟨"k1", "photo", none, none⟩]⟩,
       fun _ => true⟩
      ⟨false, []⟩).ret = .error .keyError := by decide

/-- C3 amended: an exception raised inside the running cycle body (after
the lock is acquired) propagates to the caller as the cycle's outcome, but
the finally clause still releases the lock on that path, and the dedup
store is left unwritten (same file, no save event). -/
theorem exception_path_cleanup (o : Oracle) (w : World) (e : PyErr)
    (hl : w.lock = false)
    (h : (check_and_forward_tweets o w).ret = .error e) :
    (check_and_forward_tweets o w).world.lock = false ∧
    (check_and_forward_tweets o w).world.file = w.file ∧
    ∀ s, Event.saveStore s ∉ (check_and_forward_tweets o w).trace := by
  have hw : check_and_forward_tweets o w =
      ⟨(runBody o w.file).1, ⟨false, (runBody o w.file).2.1⟩,
        (runBody o w.file).2.2 ++ [Event.cleanupTemp]⟩ := by
    simp [check_and_forward_tweets, hl]
  rw [hw] at h ⊢
  refine ⟨rfl, ?_, ?_⟩
  · rcases hu : o.userId with _ | uid
    · rw [runBody_noUser w.file hu]
    · by_cases he : uid = ""
      · subst he; rw [runBody_emptyUser w.file hu]
      · rcases hf : o.fetch (effSince (since_id_of (load_processed_tweets w.file)))
          with _ | p
        · rw [runBody_noFetch w.file hu he hf]
        · rcases hd : p.data with _ | tweets
          · rw [runBody_noData w.file hu he hf hd]
          · rcases hc : collectTweets p (load_processed_tweets w.file)
              (load_processed_tweets w.file) tweets with e' | ⟨fps, newly⟩
            · rw [runBody_collectError w.file hu he hf hd hc]
            · rw [runBody_collectOk w.file hu he hf hd hc] at h
              simp at h
  · intro s
    rcases hu : o.userId with _ | uid
    · rw [runBody_noUser w.file hu]; simp
    · by_cases he : uid = ""
      · subst he; rw [runBody_emptyUser w.file hu]; simp
      · rcases hf : o.fetch (effSince (since_id_of (load_processed_tweets w.file)))
          with _ | p
        · rw [runBody_noFetch w.file hu he hf]; simp
        · rcases hd : p.data with _ | tweets
          · rw [runBody_noData w.file hu he hf hd]; simp
          · rcases hc : collectTweets p (load_processed_tweets w.file)
              (load_processed_tweets w.file) tweets with e' | ⟨fps, newly⟩
            · rw [runBody_collectError w.file hu he hf hd hc]; simp
            · rw [runBody_collectOk w.file hu he hf hd hc] at h
              simp at h

/-- Witness for exception_path_cleanup at the concrete raising input of
the counterexample. -/
theorem exception_path_cleanup_witness :
    (check_and_forward_tweets
      ⟨some "u", fun _ => some ⟨some [⟨"1", "t", none, some ["k1"]⟩],
                                some [⟨"k1", "photo", none, none⟩]⟩,
       fun _ => true⟩
      ⟨false, []⟩).world.lock = false :=
  (exception_path_cleanup _ _ PyErr.keyError rfl (by decide)).1

/- ------------------------------------------------------------------ -/
/- Claim C4: rate-limit backoff. -/

theorem tweets_requests_identical (uid : String) (s : Option String) :
    ∀ fs : List FResp, ∀ e ∈ (get_recent_tweets uid s fs).1,
    ∀ u c, e = REvent.requestTweets u c → u = uid ∧ c = effSince s := by
  intro fs
  induction fs with
  | nil => intro e he; simp [get_recent_tweets] at he
  | cons r rs ih =>
    intro e he u c hec
    cases r with
    | rate =>
      simp only [get_recent_tweets, List.mem_cons] at he
      rcases he with h | h | h
      · subst h; cases hec; exact ⟨rfl, rfl⟩
      · subst h; cases hec
      · exact ih e h u c hec
    | ok p =>
      simp only [get_recent_tweets, List.mem_cons, List.not_mem_nil, or_false] at he
      subst he; cases hec; exact ⟨rfl, rfl⟩
    | exc =>
      simp only [get_recent_tweets, List.mem_cons, List.not_mem_nil, or_false] at he
      subst he; cases hec; exact ⟨rfl, rfl⟩

/-- C4: a rate-limit (429) response to the user-lookup or recent-posts
request makes the client sleep 900 seconds (15 minutes) and then retry —
one sleep and one retried attempt per 429 signal — and every request
issued by a recent-posts call, the retries included, is identical: same
user id and same since cursor. -/
theorem rate_limit_retry (name uid : String) (s : Option String)
    (rs : List UResp) (fs : List FResp) :
    get_user_id name (UResp.rate :: rs) =
      (REvent.requestUser name :: REvent.sleep 900 :: (get_user_id name rs).1,
       (get_user_id name rs).2) ∧
    get_recent_tweets uid s (FResp.rate :: fs) =
      (REvent.requestTweets uid (effSince s) :: REvent.sleep 900 ::
         (get_recent_tweets uid s fs).1,
       (get_recent_tweets uid s fs).2) ∧
    (∀ e ∈ (get_recent_tweets uid s fs).1,
      ∀ u c, e = REvent.requestTweets u c → u = uid ∧ c = effSince s) :=
  ⟨rfl, rfl, tweets_requests_identical uid s fs⟩

/-- Witness for rate_limit_retry: one 429 followed by a success performs
exactly one 900 second sleep and one identical retry, and the request of
a successful call carries exactly the requested cursor. -/
theorem rate_limit_retry_witness :
    get_user_id "h1" [UResp.rate, UResp.ok (some "99")] =
      ([REvent.requestUser "h1", REvent.sleep 900, REvent.requestUser "h1"],
       some "99") ∧
    ("u3" = "u3" ∧ some "7" = effSince (some "7")) := by
  constructor
  · rw [(rate_limit_retry "h1" "u3" (some "7") [UResp.ok (some "99")] []).1]
    decide
  · exact (rate_limit_retry "h1" "u3" (some "7") [] [FResp.ok ⟨none, none⟩]).2.2
      (REvent.requestTweets "u3" (some "7")) (by decide) "u3" (some "7") rfl

/- ------------------------------------------------------------------ -/
/- Claim C9: dedup-set monotonicity. -/

theorem runBody_file_superset (o : Oracle) (f : List String) :
    ∀ x ∈ load_processed_tweets f, x ∈ (runBody o f).2.1 := by
  intro x hx
  rcases hu : o.userId with _ | uid
  · rw [runBody_noUser f hu]; exact load_subset x hx
  · by_cases he : uid = ""
    · subst he; rw [runBody_emptyUser f hu]; exact load_subset x hx
    · rcases hf : o.fetch (effSince (since_id_of (load_processed_tweets f)))
        with _ | p
      · rw [runBody_noFetch f hu he hf]; exact load_subset x hx
      · rcases hd : p.data with _ | tweets
        · rw [runBody_noData f hu he hf hd]; exact load_subset x hx
        · rcases hc : collectTweets p (load_processed_tweets f)
            (load_processed_tweets f) tweets with e' | ⟨fps, newly⟩
          · rw [runBody_collectError f hu he hf hd hc]; exact load_subset x hx
          · rw [runBody_collectOk f hu he hf hd hc]
            by_cases hE : fps.isEmpty
            · simp only [hE, if_true]; exact load_subset x hx
            · simp only [hE, if_false]
              exact collect_newly_superset hc x hx

/-- C9: for every cycle that returns successfully, every id loaded from
the dedup store at cycle start is still present in the store at cycle
end — ids are only ever added, never removed. -/
theorem dedup_monotone (o : Oracle) (w : World) (n : Nat)
    (h : (check_and_forward_tweets o w).ret = .ok n) :
    ∀ x ∈ load_processed_tweets w.file, x ∈ (check_and_forward_tweets o w).world.file := by
  intro x hx
  unfold check_and_forward_tweets
  split
  · exact load_subset x hx
  · exact runBody_file_superset o w.file x hx

/-- Witness for dedup_monotone at a concrete successful cycle. -/
theorem dedup_monotone_witness :
    "7" ∈ (check_and_forward_tweets ⟨none, fun _ => none, fun _ => true⟩
      ⟨false, ["7"]⟩).world.file :=
  dedup_monotone ⟨none, fun _ => none, fun _ => true⟩ ⟨false, ["7"]⟩ 0
    (by decide) "7" (by decide)

/- ------------------------------------------------------------------ -/
/- The lexicographic comparison used by the watermark, related to the
   String order of the library. -/

theorem lexLtB_iff_lex : ∀ l1 l2 : List Char, lexLtB l1 l2 = true ↔ List.Lex (· < ·) l1 l2 := by
  intro l1
  induction l1 with
  | nil =>
    intro l2
    cases l2 with
    | nil =>
      apply iff_of_false
      · simp [lexLtB]
      · intro h; cases h
    | cons b bs =>
      apply iff_of_true
      · simp [lexLtB]
      · exact List.Lex.nil
  | cons a as ih =>
    intro l2
    cases l2 with
    | nil =>
      apply iff_of_false
      · simp [lexLtB]
      · intro h; cases h
    | cons b bs =>
      by_cases hab : a < b
      · apply iff_of_true
        · simp [lexLtB, hab]
        · exact List.Lex.rel hab
      · by_cases hba : b < a
        · apply iff_of_false
          · simp [lexLtB, hab, hba]
          · intro h
            cases h with
            | cons h2 => exact absurd hba (lt_irrefl a)
            | rel h2 => exact hab h2
        · have heq : a = b := le_antisymm (not_lt.mp hba) (not_lt.mp hab)
          subst heq
          constructor
          · intro h
            simp only [lexLtB, if_neg (lt_irrefl a)] at h
            exact List.Lex.cons ((ih bs).mp h)
          · intro h
            simp only [lexLtB, if_neg (lt_irrefl a)]
            cases h with
            | cons h2 => exact (ih bs).mpr h2
            | rel h2 => exact absurd h2 (lt_irrefl a)

theorem string_lt_iff_lexLtB (a b : String) : a < b ↔ lexLtB a.data b.data = true :=
  String.lt_iff_toList_lt.trans (lexLtB_iff_lex a.data b.data).symm

theorem pyMax2_eq_max (a b : String) : pyMax2 a b = max a b := by
  unfold pyMax2
  by_cases h : a < b
  · rw [if_pos ((string_lt_iff_lexLtB a b).mp h), max_eq_right h.le]
  · have hb : ¬ lexLtB a.data b.data = true :=
      fun hh => h ((string_lt_iff_lexLtB a b).mpr hh)
    rw [if_neg hb, max_eq_left (not_lt.mp h)]

theorem foldl_max_base_le : ∀ (xs : List String) (x : String), x ≤ xs.foldl max x := by
  intro xs
  induction xs with
  | nil => intro x; exact le_refl x
  | cons a as ih =>
    intro x
    exact le_trans (le_max_left x a) (ih (max x a))

theorem foldl_max_mem : ∀ (xs : List String) (x : String), xs.foldl max x ∈ x :: xs := by
  intro xs
  induction xs with
  | nil => intro x; simp
  | cons a as ih =>
    intro x
    have h := ih (max x a)
    simp only [List.foldl_cons]
    rcases List.mem_cons.mp h with h1 | h1
    · rw [h1]
      rcases max_choice x a with h2 | h2 <;> rw [h2]
      · exact List.mem_cons_self _ _
      · exact List.mem_cons_of_mem _ (List.mem_cons_self _ _)
    · exact List.mem_cons_of_mem _ (List.mem_cons_of_mem _ h1)

theorem foldl_max_ge : ∀ (xs : List String) (x y : String), y ∈ xs → y ≤ xs.foldl max x := by
  intro xs
  induction xs with
  | nil => intro x y hy; cases hy
  | cons a as ih =>
    intro x y hy
    rcases List.mem_cons.mp hy with h | h
    · subst h
      exact le_trans (le_max_right x y) (foldl_max_base_le as (max x y))
    · exact ih (max x a) y h

theorem listMaxStr_spec {l : List String} (h : l ≠ []) :
    ∃ m, listMaxStr l = some m ∧ m ∈ l ∧ ∀ y ∈ l, y ≤ m := by
  cases l with
  | nil => exact absurd rfl h
  | cons x xs =>
    have hp : pyMax2 = fun a b => max a b :=
      funext fun a => funext fun b => pyMax2_eq_max a b
    refine ⟨xs.foldl pyMax2 x, rfl, ?_, ?_⟩
    · rw [hp]; exact foldl_max_mem xs x
    · intro y hy
      rw [hp]
      rcases List.mem_cons.mp hy with h2 | h2
      · subst h2; exact foldl_max_base_le xs y
      · exact foldl_max_ge xs x y h2

theorem since_id_spec {l : List String} (h : l ≠ []) :
    ∃ m, since_id_of l = some m ∧ m ∈ l ∧ ∀ y ∈ l, y ≤ m := by
  cases l with
  | nil => exact absurd rfl h
  | cons x xs =>
    obtain ⟨m, hm, hmem, hmax⟩ := listMaxStr_spec h
    exact ⟨m, hm, hmem, hmax⟩

theorem load_ne_empty {f : List String} : ∀ x ∈ load_processed_tweets f, x ≠ "" := by
  unfold load_processed_tweets
  suffices h : ∀ (s acc : List String), (∀ y ∈ acc, y ≠ "") →
      ∀ x ∈ s.foldl (fun a line => if line = "" then a else pySetAdd a line) acc,
      x ≠ "" by
    exact fun x hx => h f [] (by simp) x hx
  intro s
  induction s with
  | nil => intro acc hacc x hx; exact hacc x hx
  | cons a as ih =>
    intro acc hacc x hx
    simp only [List.foldl_cons] at hx
    refine ih _ ?_ x hx
    intro y hy
    by_cases ha : a = ""
    · rw [if_pos ha] at hy; exact hacc y hy
    · rw [if_neg ha] at hy
      unfold pySetAdd at hy
      split at hy
      · exact hacc y hy
      · rcases List.mem_append.mp hy with h1 | h1
        · exact hacc y h1
        · simp at h1; subst h1; exact ha

theorem runBody_trace_prefix {o : Oracle} {uid : String} (f : List String)
    (hu : o.userId = some uid) (he : uid ≠ "") :
    ∃ rest, (runBody o f).2.2 =
      Event.fetchUser TWITTER_TARGET_USER ::
      Event.fetchTweets uid (effSince (since_id_of (load_processed_tweets f))) ::
      rest := by
  rcases hf : o.fetch (effSince (since_id_of (load_processed_tweets f))) with _ | p
  · rw [runBody_noFetch f hu he hf]; exact ⟨[], rfl⟩
  · rcases hd : p.data with _ | tweets
    · rw [runBody_noData f hu he hf hd]; exact ⟨[], rfl⟩
    · rcases hc : collectTweets p (load_processed_tweets f)
        (load_processed_tweets f) tweets with e | ⟨fps, newly⟩
      · rw [runBody_collectError f hu he hf hd hc]; exact ⟨[], rfl⟩
      · rw [runBody_collectOk f hu he hf hd hc]
        refine ⟨sendLoop o fps.reverse ++
          (if fps.isEmpty then [] else [Event.saveStore newly]), ?_⟩
        simp

/- ------------------------------------------------------------------ -/
/- Claim C7: watermark fetch bound. -/

/-- C7: in a cycle that acquires the lock and resolves the account, the
recent-posts request carries a since cursor c; when the loaded dedup set
is non-empty, c is its maximum id (a member at least as large as every
member, in the lexicographic string order Python max uses), and when the
dedup set is empty no cursor is sent. -/
theorem watermark_bound (o : Oracle) (w : World) (uid : String)
    (hl : w.lock = false) (hu : o.userId = some uid) (he : uid ≠ "") :
    ∃ c rest, (check_and_forward_tweets o w).trace =
        Event.fetchUser TWITTER_TARGET_USER :: Event.fetchTweets uid c :: rest ∧
      (load_processed_tweets w.file = [] → c = none) ∧
      (load_processed_tweets w.file ≠ [] →
        ∃ m, c = some m ∧ m ∈ load_processed_tweets w.file ∧
          ∀ y ∈ load_processed_tweets w.file, y ≤ m) := by
  have hw : (check_and_forward_tweets o w).trace =
      (runBody o w.file).2.2 ++ [Event.cleanupTemp] := by
    simp [check_and_forward_tweets, hl]
  obtain ⟨rest, hr⟩ := runBody_trace_prefix w.file hu he
  refine ⟨effSince (since_id_of (load_processed_tweets w.file)),
    rest ++ [Event.cleanupTemp], ?_, ?_, ?_⟩
  · rw [hw, hr]; simp
  · intro h0; rw [h0]; rfl
  · intro hne
    obtain ⟨m, hm, hmem, hmax⟩ := since_id_spec hne
    have hne2 : m ≠ "" := load_ne_empty m hmem
    refine ⟨m, ?_, hmem, hmax⟩
    rw [hm]
    simp [effSince, hne2]

/-- Witness for watermark_bound: with dedup store lines 9 and 10, the
cursor is the lexicographic maximum 9, so 10 is below the cursor. -/
theorem watermark_bound_witness : ("10" : String) ≤ "9" := by
  obtain ⟨c, rest, htr, hnil, hcons⟩ :=
    watermark_bound ⟨some "u", fun _ => none, fun _ => true⟩ ⟨false, ["9", "10"]⟩
      "u" rfl rfl (by decide)
  obtain ⟨m, hc, hmem, hmax⟩ := hcons (by decide)
  have ht2 : (check_and_forward_tweets ⟨some "u", fun _ => none, fun _ => true⟩
      ⟨false, ["9", "10"]⟩).trace =
      [Event.fetchUser TWITTER_TARGET_USER, Event.fetchTweets "u" (some "9"),
       Event.cleanupTemp] := by decide
  rw [ht2] at htr
  simp only [List.cons.injEq, Event.fetchTweets.injEq] at htr
  have hm9 : m = "9" := by
    have := htr.2.1.2
    rw [hc] at this
    injection this.symm
  subst hm9
  exact hmax "10" (by decide)

/- ------------------------------------------------------------------ -/
/- Claim C10: the watermark is the lexicographic maximum; numeric digit
   values for relating it to numeric recency. -/

/-- Numeric value of a decimal digit character. -/
def digitVal (c : Char) : Nat := c.toNat - 48

/-- Numeric value of a digit string, most significant first. -/
def valChars : List Char → Nat
  | [] => 0
  | c :: cs => digitVal c * 10 ^ cs.length + valChars cs

/-- Numeric value of a decimal id string. -/
def strVal (s : String) : Nat := valChars s.data

theorem isDigitBounds {c : Char} (h : c.isDigit = true) :
    48 ≤ c.toNat ∧ c.toNat ≤ 57 := by
  simp only [Char.isDigit, Bool.and_eq_true, decide_eq_true_eq, ge_iff_le] at h
  exact ⟨h.1, h.2⟩

theorem valChars_lt_pow {l : List Char} (h : ∀ c ∈ l, c.isDigit = true) :
    valChars l < 10 ^ l.length := by
  induction l with
  | nil => simp [valChars]
  | cons c cs ih =>
    have hd := isDigitBounds (h c (List.mem_cons_self c cs))
    have ht := ih (fun d hd2 => h d (List.mem_cons_of_mem _ hd2))
    have h9 : digitVal c ≤ 9 := by unfold digitVal; omega
    have hmul : digitVal c * 10 ^ cs.length ≤ 9 * 10 ^ cs.length :=
      Nat.mul_le_mul_right (10 ^ cs.length) h9
    have hpow : (10 : Nat) ^ (cs.length + 1) = 10 ^ cs.length * 10 :=
      pow_succ 10 cs.length
    simp only [valChars, List.length_cons]
    omega

theorem lex_val_lt : ∀ {l1 l2 : List Char}, List.Lex (· < ·) l1 l2 →
    l1.length = l2.length → (∀ c ∈ l1, c.isDigit = true) →
    (∀ c ∈ l2, c.isDigit = true) → valChars l1 < valChars l2 := by
  intro l1 l2 h
  induction h with
  | nil => intro hlen; simp at hlen
  | @cons a as bs hlex ih =>
    intro hlen h1 h2
    have hlen2 : as.length = bs.length := by simpa using hlen
    have hv := ih hlen2 (fun d hd => h1 d (List.mem_cons_of_mem _ hd))
      (fun d hd => h2 d (List.mem_cons_of_mem _ hd))
    simp only [valChars]
    rw [hlen2]
    exact Nat.add_lt_add_left hv _
  | @rel a as b bs hab =>
    intro hlen h1 h2
    have hlen2 : as.length = bs.length := by simpa using hlen
    have ha := isDigitBounds (h1 a (List.mem_cons_self a as))
    have hb := isDigitBounds (h2 b (List.mem_cons_self b bs))
    have hvn : a.toNat < b.toNat := hab
    have hdv : digitVal a + 1 ≤ digitVal b := by unfold digitVal; omega
    have hclt : valChars as < 10 ^ as.length :=
      valChars_lt_pow (fun d hd => h1 d (List.mem_cons_of_mem _ hd))
    have h1' : valChars as < 10 ^ bs.length := hlen2 ▸ hclt
    simp only [valChars]
    rw [hlen2]
    calc digitVal a * 10 ^ bs.length + valChars as
        < digitVal a * 10 ^ bs.length + 10 ^ bs.length :=
          Nat.add_lt_add_left h1' _
      _ = (digitVal a + 1) * 10 ^ bs.length := by ring
      _ ≤ digitVal b * 10 ^ bs.length :=
          Nat.mul_le_mul_right (10 ^ bs.length) hdv
      _ ≤ digitVal b * 10 ^ bs.length + valChars bs := Nat.le_add_right _ _

theorem strVal_le_of_le {a m : String} (ham : a ≤ m)
    (hlen : a.data.length = m.data.length)
    (ha : ∀ c ∈ a.data, c.isDigit = true) (hm : ∀ c ∈ m.data, c.isDigit = true) :
    strVal a ≤ strVal m := by
  rcases eq_or_lt_of_le ham with h | h
  · rw [h]
  · exact (lex_val_lt (String.lt_iff_toList_lt.mp h) hlen ha hm).le

/-- C10: the since cursor is the Python max of a set of id strings, i.e.
the lexicographically greatest id.  When every id in the set has the same
digit length, that cursor is also the numerically greatest id; and on the
set of ids 9 and 10 — differing lengths — the cursor is 9, which is not
the numerically newest id 10. -/
theorem since_id_lexicographic :
    (∀ (l : List String) (k : Nat), l ≠ [] →
      (∀ x ∈ l, x.data.length = k ∧ ∀ c ∈ x.data, c.isDigit = true) →
      ∃ m, since_id_of l = some m ∧ m ∈ l ∧ (∀ x ∈ l, x ≤ m) ∧
        (∀ x ∈ l, strVal x ≤ strVal m)) ∧
    since_id_of ["9", "10"] = some "9" ∧ strVal "9" < strVal "10" := by
  refine ⟨?_, by decide, by decide⟩
  intro l k hne hd
  obtain ⟨m, hm, hmem, hmax⟩ := since_id_spec hne
  refine ⟨m, hm, hmem, hmax, ?_⟩
  intro x hx
  exact strVal_le_of_le (hmax x hx)
    (by rw [(hd x hx).1, (hd m hmem).1]) (hd x hx).2 (hd m hmem).2

/-- Witness for since_id_lexicographic at the concrete same-length set of
ids 11 and 12: the cursor 12 is numerically at least 11. -/
theorem since_id_lexicographic_witness : strVal "11" ≤ strVal "12" := by
  obtain ⟨m, hm, hmem, hmax, hval⟩ :=
    since_id_lexicographic.1 ["11", "12"] 2 (by decide) (by decide)
  have h2 : since_id_of ["11", "12"] = some "12" := by decide
  rw [h2] at hm
  have hm2 : m = "12" := by injection hm with h3; exact h3.symm
  subst hm2
  exact hval "11" (by decide)

/- ------------------------------------------------------------------ -/
/- Claim C5: video variant selection. -/

/-- The highest bit rate declared by any variant of the list (claim-side
reading of: highest declared bit_rate). -/
def maxDecl : List Variant → Option Nat
  | [] => none
  | v :: vs =>
    match v.bit_rate, maxDecl vs with
    | none, m => m
    | some b, none => some b
    | some b, some m => some (max b m)

/-- The url the spec says the resolver selects: the url of the first
variant attaining the highest declared bit rate (first-seen tie break),
or, when no variant declares one, the url of the first variant exposing
any url. -/
def specBestUrl (vs : List Variant) : Option String :=
  match maxDecl vs with
  | some M => (vs.find? (fun v => v.bit_rate == some M)).bind Variant.url
  | none => (vs.find? (fun v => v.url.isSome)).bind Variant.url

/-- Well-formed variant lists: a variant declaring a bit rate also carries
a url (what the upstream API serves; reading the url of a bit-rated
variant without one would raise), urls are never the empty string, and
declared bit rates are positive. -/
def variantsWF (vs : List Variant) : Prop :=
  (∀ v ∈ vs, v.bit_rate.isSome = true → v.url.isSome = true) ∧
  (∀ v ∈ vs, v.url ≠ some "") ∧
  (∀ v ∈ vs, v.bit_rate ≠ some 0)

theorem variantsWF_tail {v : Variant} {vs : List Variant}
    (h : variantsWF (v :: vs)) : variantsWF vs :=
  ⟨fun x hx => h.1 x (List.mem_cons_of_mem _ hx),
   fun x hx => h.2.1 x (List.mem_cons_of_mem _ hx),
   fun x hx => h.2.2 x (List.mem_cons_of_mem _ hx)⟩

theorem maxDecl_cons_none {v : Variant} (vs : List Variant)
    (h : v.bit_rate = none) : maxDecl (v :: vs) = maxDecl vs := by
  conv_lhs => rw [maxDecl]
  rw [h]

theorem maxDecl_cons_some {v : Variant} (vs : List Variant) {br : Nat}
    (h : v.bit_rate = some br) :
    maxDecl (v :: vs) = some (match maxDecl vs with
                              | none => br
                              | some m => max br m) := by
  conv_lhs => rw [maxDecl]
  rw [h]
  cases maxDecl vs <;> rfl

theorem maxDecl_pos {vs : List Variant} {M : Nat}
    (hwf : ∀ v ∈ vs, v.bit_rate ≠ some 0) (h : maxDecl vs = some M) : 1 ≤ M := by
  induction vs generalizing M with
  | nil => simp [maxDecl] at h
  | cons v vs ih =>
    have hwfT : ∀ x ∈ vs, x.bit_rate ≠ some 0 :=
      fun x hx => hwf x (List.mem_cons_of_mem _ hx)
    rcases hbr : v.bit_rate with _ | br
    · rw [maxDecl_cons_none vs hbr] at h
      exact ih hwfT h
    · have hb0 : br ≠ 0 := by
        intro h0
        exact hwf v (List.mem_cons_self v vs) (h0 ▸ hbr)
      rw [maxDecl_cons_some vs hbr] at h
      cases hM : maxDecl vs with
      | none => rw [hM] at h; simp at h; omega
      | some m =>
        have hm1 : 1 ≤ m := ih hwfT hM
        rw [hM] at h
        simp at h
        rcases max_choice br m with h3 | h3 <;> rw [h3] at h <;> omega

theorem fold_from_some : ∀ (vs : List Variant), variantsWF vs →
    ∀ (b : Nat) (u : String), u ≠ "" →
    bestVariantFold (b, some u) vs =
      .ok (match maxDecl vs with
           | none => (b, some u)
           | some M =>
             if b < M then
               (M, (vs.find? (fun v => v.bit_rate == some M)).bind Variant.url)
             else (b, some u)) := by
  intro vs
  induction vs with
  | nil => intro _ b u hu; rfl
  | cons v vs ih =>
    intro hwf b u hu
    have hwfT := variantsWF_tail hwf
    have htr : pyStrTruthy (some u) = true := by simp [pyStrTruthy, hu]
    rcases hbr : v.bit_rate with _ | br
    · have hstep : bestVariantStep (b, some u) v = .ok (b, some u) := by
        unfold bestVariantStep
        rw [hbr]
        simp [htr]
      simp only [bestVariantFold, hstep]
      rw [ih hwfT b u hu, maxDecl_cons_none vs hbr]
      cases hM : maxDecl vs with
      | none => rfl
      | some M =>
        have hfind : List.find? (fun x => x.bit_rate == some M) (v :: vs) =
            List.find? (fun x => x.bit_rate == some M) vs :=
          List.find?_cons_of_neg _ (by simp [hbr])
        simp [hfind]
    · have hvu : v.url.isSome = true :=
        hwf.1 v (List.mem_cons_self v vs) (by rw [hbr]; rfl)
      obtain ⟨w, hw⟩ := Option.isSome_iff_exists.mp hvu
      have hw_ne : w ≠ "" := by
        intro h0
        exact hwf.2.1 v (List.mem_cons_self v vs) (h0 ▸ hw)
      by_cases hlt : b < br
      · have hstep : bestVariantStep (b, some u) v = .ok (br, some w) := by
          unfold bestVariantStep
          rw [hbr, hw]
          simp [hlt]
        simp only [bestVariantFold, hstep]
        rw [ih hwfT br w hw_ne, maxDecl_cons_some vs hbr]
        cases hM : maxDecl vs with
        | none =>
          have hfind : List.find? (fun x => x.bit_rate == some br) (v :: vs) = some v :=
            List.find?_cons_of_pos _ (by simp [hbr])
          simp [hfind, hlt, hw]
        | some m =>
          rcases Nat.lt_or_ge br m with hbm | hbm
          · have hmax : max br m = m := max_eq_right hbm.le
            have hne2 : br ≠ m := by omega
            have hfind : List.find? (fun x => x.bit_rate == some m) (v :: vs) =
                List.find? (fun x => x.bit_rate == some m) vs :=
              List.find?_cons_of_neg _ (by simp [hbr, hne2])
            have hblt : b < m := by omega
            simp [hmax, hbm, hblt, hfind]
          · have hmax : max br m = br := max_eq_left hbm
            have hfind : List.find? (fun x => x.bit_rate == some br) (v :: vs) = some v :=
              List.find?_cons_of_pos _ (by simp [hbr])
            simp [hmax, hlt, Nat.not_lt.mpr hbm, hw, hfind]
      · have hstep : bestVariantStep (b, some u) v = .ok (b, some u) := by
          unfold bestVariantStep
          rw [hbr]
          simp [hlt, htr]
        simp only [bestVariantFold, hstep]
        rw [ih hwfT b u hu, maxDecl_cons_some vs hbr]
        have hble : br ≤ b := Nat.not_lt.mp hlt
        cases hM : maxDecl vs with
        | none => simp [hlt]
        | some m =>
          by_cases hbm2 : b < m
          · have hmax : max br m = m := max_eq_right (by omega)
            have hne2 : br ≠ m := by omega
            have hfind : List.find? (fun x => x.bit_rate == some m) (v :: vs) =
                List.find? (fun x => x.bit_rate == some m) vs :=
              List.find?_cons_of_neg _ (by simp [hbr, hne2])
            simp [hmax, hbm2, hfind]
          · have hmax_le : ¬ b < max br m := by
              rcases max_choice br m with h3 | h3 <;> rw [h3] <;> omega
            simp [hmax_le, hbm2]

theorem fold_from_none : ∀ (vs : List Variant), variantsWF vs →
    bestVariantFold (0, none) vs =
      .ok (match maxDecl vs with
           | some M =>
             (M, (vs.find? (fun v => v.bit_rate == some M)).bind Variant.url)
           | none =>
             (0, (vs.find? (fun v => v.url.isSome)).bind Variant.url)) := by
  intro vs
  induction vs with
  | nil => intro _; rfl
  | cons v vs ih =>
    intro hwf
    have hwfT := variantsWF_tail hwf
    rcases hbr : v.bit_rate with _ | br
    · rcases hurl : v.url with _ | w
      · have hstep : bestVariantStep (0, none) v = .ok (0, none) := by
          unfold bestVariantStep
          rw [hbr, hurl]
          simp
        simp only [bestVariantFold, hstep]
        rw [ih hwfT, maxDecl_cons_none vs hbr]
        cases hM : maxDecl vs with
        | none =>
          have hfind : List.find? (fun x => x.url.isSome) (v :: vs) =
              List.find? (fun x => x.url.isSome) vs :=
            List.find?_cons_of_neg _ (by simp [hurl])
          simp [hfind]
        | some M =>
          have hfind : List.find? (fun x => x.bit_rate == some M) (v :: vs) =
              List.find? (fun x => x.bit_rate == some M) vs :=
            List.find?_cons_of_neg _ (by simp [hbr])
          simp [hfind]
      · have hw_ne : w ≠ "" := by
          intro h0
          exact hwf.2.1 v (List.mem_cons_self v vs) (h0 ▸ hurl)
        have hstep : bestVariantStep (0, none) v = .ok (0, some w) := by
          unfold bestVariantStep
          rw [hbr, hurl]
          simp [pyStrTruthy]
        simp only [bestVariantFold, hstep]
        rw [fold_from_some vs hwfT 0 w hw_ne, maxDecl_cons_none vs hbr]
        cases hM : maxDecl vs with
        | none =>
          have hfind : List.find? (fun x => x.url.isSome) (v :: vs) = some v :=
            List.find?_cons_of_pos _ (by simp [hurl])
          simp [hfind, hurl]
        | some M =>
          have hM1 : 0 < M := maxDecl_pos hwfT.2.2 hM
          have hfind : List.find? (fun x => x.bit_rate == some M) (v :: vs) =
              List.find? (fun x => x.bit_rate == some M) vs :=
            List.find?_cons_of_neg _ (by simp [hbr])
          simp [hM1, hfind]
    · have hvu : v.url.isSome = true :=
        hwf.1 v (List.mem_cons_self v vs) (by rw [hbr]; rfl)
      obtain ⟨w, hw⟩ := Option.isSome_iff_exists.mp hvu
      have hw_ne : w ≠ "" := by
        intro h0
        exact hwf.2.1 v (List.mem_cons_self v vs) (h0 ▸ hw)
      have hb0 : br ≠ 0 := by
        intro h0
        exact hwf.2.2 v (List.mem_cons_self v vs) (h0 ▸ hbr)
      have hstep : bestVariantStep (0, none) v = .ok (br, some w) := by
        unfold bestVariantStep
        rw [hbr, hw]
        simp [Nat.pos_of_ne_zero hb0]
      simp only [bestVariantFold, hstep]
      rw [fold_from_some vs hwfT br w hw_ne, maxDecl_cons_some vs hbr]
      cases hM : maxDecl vs with
      | none =>
        have hfind : List.find? (fun x => x.bit_rate == some br) (v :: vs) = some v :=
          List.find?_cons_of_pos _ (by simp [hbr])
        simp [hw, hfind]
      | some m =>
        rcases Nat.lt_or_ge br m with hbm | hbm
        · have hmax : max br m = m := max_eq_right hbm.le
          have hne2 : br ≠ m := by omega
          have hfind : List.find? (fun x => x.bit_rate == some m) (v :: vs) =
              List.find? (fun x => x.bit_rate == some m) vs :=
            List.find?_cons_of_neg _ (by simp [hbr, hne2])
          simp [hmax, hbm, hfind]
        · have hmax : max br m = br := max_eq_left hbm
          have hfind : List.find? (fun x => x.bit_rate == some br) (v :: vs) = some v :=
            List.find?_cons_of_pos _ (by simp [hbr])
          simp [hmax, Nat.not_lt.mpr hbm, hw, hfind]

/-- C5: the two concrete examples of the claim hold — variants
bit_rate 500 url A, bit_rate 1200 url B, url C resolve to B, and the
single variant url C resolves to C — and in general, on well-formed
variant lists, the resolver selects the url of the first variant with the
highest declared bit rate (ties broken by first-seen order), falling back
to the first variant exposing any url when none declares a bit rate. -/
theorem video_variant_selection :
    bestVideoUrl [⟨some 500, some "A"⟩, ⟨some 1200, some "B"⟩, ⟨none, some "C"⟩]
      = .ok (some "B") ∧
    bestVideoUrl [⟨none, some "C"⟩] = .ok (some "C") ∧
    ∀ vs : List Variant, variantsWF vs → bestVideoUrl vs = .ok (specBestUrl vs) := by
  refine ⟨by decide, by decide, ?_⟩
  intro vs hwf
  unfold bestVideoUrl
  rw [fold_from_none vs hwf]
  unfold specBestUrl
  cases maxDecl vs <;> rfl

/-- Witness for video_variant_selection at a concrete well-formed list. -/
theorem video_variant_selection_witness :
    bestVideoUrl [⟨some 3, some "X"⟩, ⟨none, some "Y"⟩] =
      .ok (specBestUrl [⟨some 3, some "X"⟩, ⟨none, some "Y"⟩]) :=
  video_variant_selection.2.2 [⟨some 3, some "X"⟩, ⟨none, some "Y"⟩]
    ⟨by decide, by decide, by decide⟩

/- ------------------------------------------------------------------ -/
/- Characterisation of the tweet loop and of the send trace, shared by
   the ordering, idempotence and persistence claims. -/

/-- The forwardable posts a cycle collects from a page: tweets already in
the dedup set are skipped, the rest resolve through process_tweet. -/
def newFps (page : Page) (processed : List String) (ts : List Tweet) :
    List ForwardablePost :=
  ts.filterMap (fun t => if t.id ∈ processed then none else fpOf page t)

/-- The send events the relay pipeline emits for one post when every
download succeeds: one send per asset in order, caption on index 0 only. -/
def assetSends (tid caption : String) : Nat → List MediaUrl → List Event
  | _, [] => []
  | i, m :: ms =>
    Event.send tid i m.url (if i = 0 then some caption else none)
      (m.mtype == "photo") :: assetSends tid caption (i + 1) ms

/-- The send events one tweet of the page contributes to a cycle when
every download succeeds. -/
def tweetSends (page : Page) (processed : List String) (t : Tweet) : List Event :=
  if t.id ∈ processed then []
  else
    match fpOf page t with
    | some fp => assetSends fp.id fp.text 0 fp.media_urls
    | none => []

theorem mem_pySetAdd {s : List String} {x y : String} :
    x ∈ pySetAdd s y ↔ x ∈ s ∨ x = y := by
  unfold pySetAdd
  split
  · constructor
    · exact Or.inl
    · rintro (h | h)
      · exact h
      · subst h; assumption
  · simp

theorem collect_ok (page : Page) (processed : List String) :
    ∀ {ts : List Tweet} (newly : List String),
    (∀ t ∈ ts, ∃ v, process_tweet t page = .ok v) →
    ∃ res, collectTweets page processed newly ts = .ok (newFps page processed ts, res) ∧
      ∀ x, x ∈ res ↔ x ∈ newly ∨ ∃ t, t ∈ ts ∧ t.id ∉ processed ∧ x = t.id := by
  intro ts
  induction ts with
  | nil =>
    intro newly _
    exact ⟨newly, rfl, by simp⟩
  | cons t ts ih =>
    intro newly hok
    have hokT : ∀ x ∈ ts, ∃ v, process_tweet x page = .ok v :=
      fun x hx => hok x (List.mem_cons_of_mem _ hx)
    by_cases hmem : t.id ∈ processed
    · obtain ⟨res, hres, hiff⟩ := ih newly hokT
      refine ⟨res, ?_, ?_⟩
      · simp only [collectTweets, if_pos hmem, hres]
        congr 1
        simp only [newFps, List.filterMap_cons, if_pos hmem]
      · intro x
        rw [hiff x]
        constructor
        · rintro (h | ⟨t2, ht2, h2, h3⟩)
          · exact Or.inl h
          · exact Or.inr ⟨t2, List.mem_cons_of_mem _ ht2, h2, h3⟩
        · rintro (h | ⟨t2, ht2, h2, h3⟩)
          · exact Or.inl h
          · rcases List.mem_cons.mp ht2 with h4 | h4
            · subst h4; exact absurd hmem h2
            · exact Or.inr ⟨t2, h4, h2, h3⟩
    · obtain ⟨v, hv⟩ := hok t (List.mem_cons_self t ts)
      have hfp : fpOf page t = v := by unfold fpOf; rw [hv]
      obtain ⟨res, hres, hiff⟩ := ih (pySetAdd newly t.id) hokT
      refine ⟨res, ?_, ?_⟩
      · simp only [collectTweets, if_neg hmem, hv, hres]
        cases v with
        | some fp =>
          simp only [newFps, List.filterMap_cons, if_neg hmem, hfp]
        | none =>
          simp only [newFps, List.filterMap_cons, if_neg hmem, hfp]
      · intro x
        rw [hiff x]
        constructor
        · rintro (h | ⟨t2, ht2, h2, h3⟩)
          · rcases mem_pySetAdd.mp h with h4 | h4
            · exact Or.inl h4
            · exact Or.inr ⟨t, List.mem_cons_self t ts, hmem, h4⟩
          · exact Or.inr ⟨t2, List.mem_cons_of_mem _ ht2, h2, h3⟩
        · rintro (h | ⟨t2, ht2, h2, h3⟩)
          · exact Or.inl (mem_pySetAdd.mpr (Or.inl h))
          · rcases List.mem_cons.mp ht2 with h4 | h4
            · subst h4
              exact Or.inl (mem_pySetAdd.mpr (Or.inr h3))
            · exact Or.inr ⟨t2, h4, h2, h3⟩

theorem collect_all_skipped (page : Page) (processed : List String) :
    ∀ {ts : List Tweet} (newly : List String),
    (∀ t ∈ ts, t.id ∈ processed) →
    collectTweets page processed newly ts = .ok ([], newly) := by
  intro ts
  induction ts with
  | nil => intro newly _; rfl
  | cons t ts ih =>
    intro newly h
    simp only [collectTweets, if_pos (h t (List.mem_cons_self t ts))]
    exact ih newly (fun x hx => h x (List.mem_cons_of_mem _ hx))

theorem mem_load {f : List String} {x : String} :
    x ∈ load_processed_tweets f ↔ x ∈ f ∧ x ≠ "" := by
  unfold load_processed_tweets
  suffices h : ∀ (s acc : List String),
      ∀ x, x ∈ s.foldl (fun a line => if line = "" then a else pySetAdd a line) acc ↔
        x ∈ acc ∨ (x ∈ s ∧ x ≠ "") by
    rw [h f [] x]
    simp
  intro s
  induction s with
  | nil => intro acc x; simp
  | cons a as ih =>
    intro acc x
    simp only [List.foldl_cons]
    rw [ih _ x]
    by_cases ha : a = ""
    · subst ha
      simp only [if_pos rfl]
      constructor
      · rintro (h | h)
        · exact Or.inl h
        · exact Or.inr ⟨List.mem_cons_of_mem _ h.1, h.2⟩
      · rintro (h | ⟨h1, h2⟩)
        · exact Or.inl h
        · rcases List.mem_cons.mp h1 with h3 | h3
          · exact absurd h3 h2
          · exact Or.inr ⟨h3, h2⟩
    · rw [if_neg ha]
      constructor
      · rintro (h | h)
        · rcases mem_pySetAdd.mp h with h2 | h2
          · exact Or.inl h2
          · exact Or.inr ⟨h2 ▸ List.mem_cons_self a as, h2 ▸ ha⟩
        · exact Or.inr ⟨List.mem_cons_of_mem _ h.1, h.2⟩
      · rintro (h | ⟨h1, h2⟩)
        · exact Or.inl (mem_pySetAdd.mpr (Or.inl h))
        · rcases List.mem_cons.mp h1 with h3 | h3
          · exact Or.inl (mem_pySetAdd.mpr (Or.inr h3))
          · exact Or.inr ⟨h3, h2⟩

theorem isSendOf_isSend {tid : String} {j : Nat} {e : Event}
    (h : isSendOf tid j e = true) : isSendEvent e = true := by
  cases e <;> simp_all [isSendOf, isSendEvent]

theorem sends_append (a b : List Event) : sends (a ++ b) = sends a ++ sends b := by
  simp [sends, List.filter_append]

theorem sends_sendAssets {o : Oracle} (hdl : ∀ u, o.downloadOk u = true)
    (tid cap : String) : ∀ (i : Nat) (ms : List MediaUrl),
    sends (sendAssets o tid cap i ms) = assetSends tid cap i ms := by
  intro i ms
  induction ms generalizing i with
  | nil => rfl
  | cons m ms ih =>
    simp only [sendAssets, assetSends, hdl m.url, if_true, sends, List.filter_cons,
      List.filter_append]
    simp only [isSendEvent, List.filter_cons, List.filter_nil]
    simp only [sends] at ih
    rw [ih (i + 1)]
    simp

theorem sends_sendLoop {o : Oracle} (hdl : ∀ u, o.downloadOk u = true) :
    ∀ l : List ForwardablePost,
    sends (sendLoop o l) = l.flatMap (fun fp => assetSends fp.id fp.text 0 fp.media_urls) := by
  intro l
  induction l with
  | nil => rfl
  | cons fp rest ih =>
    simp only [sendLoop, List.flatMap_cons]
    rw [sends_append, sends_append, ih, sends_sendAssets hdl]
    simp [sends, isSendEvent]

theorem newFps_bind {page : Page} {processed : List String} :
    ∀ (ts : List Tweet),
    (newFps page processed ts).reverse.flatMap
        (fun fp => assetSends fp.id fp.text 0 fp.media_urls)
      = ts.reverse.flatMap (tweetSends page processed) := by
  intro ts
  induction ts with
  | nil => rfl
  | cons t ts ih =>
    simp only [newFps, List.filterMap_cons, List.reverse_cons]
    by_cases hmem : t.id ∈ processed
    · rw [if_pos hmem]
      simp only [List.flatMap_append, List.flatMap_cons, List.flatMap_nil, List.append_nil]
      rw [← ih]
      simp [newFps, tweetSends, hmem]
    · rw [if_neg hmem]
      cases hfp : fpOf page t with
      | none =>
        simp only [List.flatMap_append, List.flatMap_cons, List.flatMap_nil, List.append_nil]
        rw [← ih]
        simp [newFps, tweetSends, hmem, hfp]
      | some fp =>
        simp only [List.reverse_cons, List.flatMap_append, List.flatMap_cons, List.flatMap_nil,
          List.append_nil]
        rw [← ih]
        simp [newFps, tweetSends, hmem, hfp]

/-- Full characterisation of a cycle's send events: with the lock free,
the account resolved, the fetch returning the page, no resolution
exception and every download succeeding, the cycle sends, tweet by tweet
in reverse page order, the assets of each not-yet-processed forwardable
tweet. -/
theorem cycle_sends {o : Oracle} {w : World} {uid : String} {page : Page}
    {tweets : List Tweet}
    (hl : w.lock = false) (hu : o.userId = some uid) (he : uid ≠ "")
    (hf : o.fetch (effSince (since_id_of (load_processed_tweets w.file))) = some page)
    (hd : page.data = some tweets)
    (hok : ∀ t ∈ tweets, ∃ v, process_tweet t page = .ok v)
    (hdl : ∀ u, o.downloadOk u = true) :
    sends (check_and_forward_tweets o w).trace =
      tweets.reverse.flatMap (tweetSends page (load_processed_tweets w.file)) := by
  obtain ⟨res, hc, hiff⟩ := collect_ok page (load_processed_tweets w.file)
    (load_processed_tweets w.file) hok
  have hw : (check_and_forward_tweets o w).trace =
      (runBody o w.file).2.2 ++ [Event.cleanupTemp] := by
    simp [check_and_forward_tweets, hl]
  rw [hw, runBody_collectOk w.file hu he hf hd hc]
  rw [sends_append, sends_append, sends_append, sends_sendLoop hdl, newFps_bind]
  have h1 : sends [Event.fetchUser TWITTER_TARGET_USER,
      Event.fetchTweets uid (effSince (since_id_of (load_processed_tweets w.file)))] = [] := rfl
  have h3 : sends [Event.cleanupTemp] = [] := rfl
  have h2 : sends (if (newFps page (load_processed_tweets w.file) tweets).isEmpty
      then ([] : List Event) else [Event.saveStore res]) = [] := by
    split <;> rfl
  rw [h1, h2, h3]
  simp

/-- The oracle of a cycle whose upstream account resolves to uid, whose
recent-posts fetch always returns the given page, and whose downloads all
succeed. -/
def constOracle (uid : String) (page : Page) : Oracle :=
  ⟨some uid, fun _ => some page, fun _ => true⟩

theorem flatMap_congr {α β : Type} {l : List α} {f g : α → List β}
    (h : ∀ a ∈ l, f a = g a) : l.flatMap f = l.flatMap g := by
  induction l with
  | nil => rfl
  | cons a as ih =>
    simp only [List.flatMap_cons]
    rw [h a (List.mem_cons_self a as), ih (fun x hx => h x (List.mem_cons_of_mem _ hx))]

theorem map_sendTweetId_assetSends (tid cap : String) :
    ∀ (i : Nat) (ms : List MediaUrl),
    (assetSends tid cap i ms).map sendTweetId = List.replicate ms.length tid := by
  intro i ms
  induction ms generalizing i with
  | nil => rfl
  | cons m ms ih =>
    simp only [assetSends, List.map_cons, List.length_cons, List.replicate_succ]
    rw [ih (i + 1)]
    rfl

theorem fpOf_some_process {page : Page} {t : Tweet} {fp : ForwardablePost}
    (h : fpOf page t = some fp) : process_tweet t page = .ok (some fp) := by
  unfold fpOf at h
  split at h
  · rw [← h]; assumption
  · cases h

/- ------------------------------------------------------------------ -/
/- Claim C6: oldest-first delivery order. -/

/-- C6: for a fetched page (listed newest-first) all of whose posts are
new and forwardable, the cycle's send calls carry the posts' ids in the
reverse of the page order — one send per resolved asset, grouped by post —
so delivery follows original chronological order. -/
theorem oldest_first_order (file : List String) (uid : String) (page : Page)
    (tweets : List Tweet) (hue : uid ≠ "") (hd : page.data = some tweets)
    (hnew : ∀ t ∈ tweets, t.id ∉ load_processed_tweets file)
    (hfwd : ∀ t ∈ tweets, ∃ fp, process_tweet t page = .ok (some fp)) :
    sendIds (check_and_forward_tweets (constOracle uid page) ⟨false, file⟩).trace =
      tweets.reverse.flatMap
        (fun t => List.replicate (resolvedAssets t page).length t.id) := by
  have hok : ∀ t ∈ tweets, ∃ v, process_tweet t page = .ok v := by
    intro t ht
    obtain ⟨fp, hfp⟩ := hfwd t ht
    exact ⟨some fp, hfp⟩
  have hl : (⟨false, file⟩ : World).lock = false := rfl
  have hu : (constOracle uid page).userId = some uid := rfl
  have hf : (constOracle uid page).fetch
      (effSince (since_id_of (load_processed_tweets (⟨false, file⟩ : World).file)))
      = some page := rfl
  have hdl : ∀ u, (constOracle uid page).downloadOk u = true := fun u => rfl
  have hsends := cycle_sends hl hu hue hf hd hok hdl
  unfold sendIds
  rw [hsends, List.map_flatMap]
  apply flatMap_congr
  intro t ht
  have ht2 : t ∈ tweets := List.mem_reverse.mp ht
  obtain ⟨fp, hfp⟩ := hfwd t ht2
  have hfpOf : fpOf page t = some fp := by unfold fpOf; rw [hfp]
  rw [tweetSends, if_neg (hnew t ht2), hfpOf]
  rw [map_sendTweetId_assetSends]
  rw [process_tweet_id hfp]
  unfold resolvedAssets
  rw [hfpOf]

def c6page : Page :=
  ⟨some [⟨"103", "a", none, some ["k1"]⟩,
         ⟨"102", "b", none, some ["k1"]⟩,
         ⟨"101", "c", none, some ["k1"]⟩],
   some [⟨"k1", "photo", some "pu", none⟩]⟩

/-- Witness for oldest_first_order at the claim's concrete page with ids
103, 102, 101: the sends go out as 101, 102, 103. -/
theorem oldest_first_order_witness :
    sendIds (check_and_forward_tweets (constOracle "u" c6page)
      ⟨false, []⟩).trace = ["101", "102", "103"] := by
  have hfwd : ∀ t ∈ [(⟨"103", "a", none, some ["k1"]⟩ : Tweet),
      ⟨"102", "b", none, some ["k1"]⟩, ⟨"101", "c", none, some ["k1"]⟩],
      ∃ fp, process_tweet t c6page = .ok (some fp) := by
    intro t ht
    simp only [List.mem_cons, List.not_mem_nil, or_false] at ht
    rcases ht with h | h | h <;> subst h
    · exact ⟨⟨"103", "a", [⟨"photo", "pu"⟩]⟩, by decide⟩
    · exact ⟨⟨"102", "b", [⟨"photo", "pu"⟩]⟩, by decide⟩
    · exact ⟨⟨"101", "c", [⟨"photo", "pu"⟩]⟩, by decide⟩
  rw [oldest_first_order [] "u" c6page _ (by decide) rfl (by decide) hfwd]
  decide

/- ------------------------------------------------------------------ -/
/- Claim C8: persistence condition. -/

/-- C8: in a cycle that reaches the tweet loop, the dedup store is
written only when at least one forwardable post was found; when it is
written the persisted set contains the loaded set together with the id of
every inspected post that was not already known — the filtered-out posts
(retweets, media-less) included — and nothing else; a cycle that found
zero forwardable posts leaves the store untouched and emits no save. -/
theorem persistence_condition (o : Oracle) (w : World) (uid : String)
    (page : Page) (tweets : List Tweet)
    (hl : w.lock = false) (hu : o.userId = some uid) (he : uid ≠ "")
    (hf : o.fetch (effSince (since_id_of (load_processed_tweets w.file))) = some page)
    (hd : page.data = some tweets)
    (hok : ∀ t ∈ tweets, ∃ v, process_tweet t page = .ok v) :
    (newFps page (load_processed_tweets w.file) tweets = [] →
      (check_and_forward_tweets o w).world.file = w.file ∧
      ∀ s, Event.saveStore s ∉ (check_and_forward_tweets o w).trace) ∧
    (newFps page (load_processed_tweets w.file) tweets ≠ [] →
      ∃ res, Event.saveStore res ∈ (check_and_forward_tweets o w).trace ∧
        (check_and_forward_tweets o w).world.file = res ∧
        (∀ x ∈ load_processed_tweets w.file, x ∈ res) ∧
        (∀ t ∈ tweets, t.id ∉ load_processed_tweets w.file → t.id ∈ res) ∧
        (∀ x ∈ res, x ∈ load_processed_tweets w.file ∨ ∃ t ∈ tweets, x = t.id)) := by
  obtain ⟨res, hc, hiff⟩ := collect_ok page (load_processed_tweets w.file)
    (load_processed_tweets w.file) hok
  have hw : check_and_forward_tweets o w =
      ⟨(runBody o w.file).1, ⟨false, (runBody o w.file).2.1⟩,
        (runBody o w.file).2.2 ++ [Event.cleanupTemp]⟩ := by
    simp [check_and_forward_tweets, hl]
  have hrb := runBody_collectOk w.file hu he hf hd hc
  constructor
  · intro h0
    rw [hw, hrb]
    constructor
    · simp [h0]
    · intro s hs
      simp [h0, sendLoop] at hs
  · intro hne
    have hEb : (newFps page (load_processed_tweets w.file) tweets).isEmpty = false := by
      cases hx : newFps page (load_processed_tweets w.file) tweets with
      | nil => exact absurd hx hne
      | cons a l => rfl
    refine ⟨res, ?_, ?_, ?_, ?_, ?_⟩
    · rw [hw, hrb]
      simp [hEb]
    · rw [hw, hrb]
      simp [hEb]
    · intro x hx
      exact (hiff x).mpr (Or.inl hx)
    · intro t ht hnot
      exact (hiff t.id).mpr (Or.inr ⟨t, ht, hnot, rfl⟩)
    · intro x hx
      rcases (hiff x).mp hx with h | ⟨t, ht, h2, h3⟩
      · exact Or.inl h
      · exact Or.inr ⟨t, ht, h3⟩

def c8page : Page :=
  ⟨some [⟨"1", "a", none, some ["k1"]⟩,
         ⟨"2", "b", some [⟨"retweeted"⟩], none⟩],
   some [⟨"k1", "photo", some "pu", none⟩]⟩

def c8oracle : Oracle := constOracle "u" c8page

/-- Witness for persistence_condition: one forwardable post (id 1) and
one filtered retweet (id 2) against a store already holding id 5 — the
persisted set contains 5, 1 and the filtered 2. -/
theorem persistence_condition_witness :
    "5" ∈ (check_and_forward_tweets c8oracle ⟨false, ["5"]⟩).world.file ∧
    "1" ∈ (check_and_forward_tweets c8oracle ⟨false, ["5"]⟩).world.file ∧
    "2" ∈ (check_and_forward_tweets c8oracle ⟨false, ["5"]⟩).world.file := by
  have hok : ∀ t ∈ [(⟨"1", "a", none, some ["k1"]⟩ : Tweet),
      ⟨"2", "b", some [⟨"retweeted"⟩], none⟩],
      ∃ v, process_tweet t c8page = .ok v := by
    intro t ht
    simp only [List.mem_cons, List.not_mem_nil, or_false] at ht
    rcases ht with h | h <;> subst h
    · exact ⟨some ⟨"1", "a", [⟨"photo", "pu"⟩]⟩, by decide⟩
    · exact ⟨none, by decide⟩
  obtain ⟨res, hsave, hfile, hsub, hins, _⟩ :=
    (persistence_condition c8oracle ⟨false, ["5"]⟩ "u" c8page _
      rfl rfl (by decide) rfl rfl hok).2 (by decide)
  rw [hfile]
  exact ⟨hsub "5" (by decide),
    hins ⟨"1", "a", none, some ["k1"]⟩ (by decide) (by decide),
    hins ⟨"2", "b", some [⟨"retweeted"⟩], none⟩ (by decide) (by decide)⟩

/- ------------------------------------------------------------------ -/
/- Claim C1: idempotence of the cycle. -/

theorem countAsset_append (a b : List Event) (tid : String) (j : Nat) :
    countAsset (a ++ b) tid j = countAsset a tid j + countAsset b tid j :=
  List.countP_append _ a b

theorem countAsset_sends (tr : List Event) (tid : String) (j : Nat) :
    countAsset tr tid j = (sends tr).countP (isSendOf tid j) := by
  unfold countAsset sends
  induction tr with
  | nil => rfl
  | cons e es ih =>
    by_cases hse : isSendEvent e = true
    · rw [List.filter_cons_of_pos hse, List.countP_cons, List.countP_cons, ih]
    · have hso : isSendOf tid j e = false := by
        cases hx : isSendOf tid j e
        · rfl
        · exact absurd (isSendOf_isSend hx) hse
      rw [List.filter_cons_of_neg (by simp [hse]), List.countP_cons, ih, hso]
      simp

theorem countP_flatMap {α β : Type} (p : β → Bool) :
    ∀ (l : List α) (f : α → List β),
    (l.flatMap f).countP p = (l.map (fun a => (f a).countP p)).sum := by
  intro l f
  induction l with
  | nil => rfl
  | cons a as ih =>
    simp only [List.flatMap_cons, List.countP_append, List.map_cons, List.sum_cons, ih]

theorem countP_assetSends (tid cap tid' : String) (j : Nat) :
    ∀ (i : Nat) (ms : List MediaUrl),
    (assetSends tid cap i ms).countP (isSendOf tid' j) =
      if tid = tid' ∧ i ≤ j ∧ j < i + ms.length then 1 else 0 := by
  intro i ms
  induction ms generalizing i with
  | nil =>
    simp only [assetSends, List.countP_nil, List.length_nil]
    rw [if_neg]
    rintro ⟨-, h1, h2⟩
    omega
  | cons m ms ih =>
    simp only [assetSends, List.countP_cons, ih (i + 1), List.length_cons]
    have hev : isSendOf tid' j (Event.send tid i m.url
        (if i = 0 then some cap else none) (m.mtype == "photo")) =
        (tid == tid' && i == j) := rfl
    rw [hev]
    by_cases h1 : tid = tid'
    · subst h1
      simp only [beq_self_eq_true, Bool.true_and, true_and, beq_iff_eq]
      by_cases h2 : i = j
      · subst h2
        rw [if_neg (by omega), if_pos rfl, if_pos ⟨le_refl i, by omega⟩]
      · rw [if_neg h2]
        by_cases h3 : i + 1 ≤ j ∧ j < i + 1 + ms.length
        · rw [if_pos h3, if_pos ⟨by omega, by omega⟩]
        · rw [if_neg h3, if_neg (by rintro ⟨h4, h5⟩; omega)]
    · have hb : (tid == tid') = false := by simp [h1]
      simp [hb, h1]

theorem sum_single {α : Type} [DecidableEq α] : ∀ (l : List α) (c : α → Nat) (a : α),
    l.count a = 1 → (∀ b ∈ l, b ≠ a → c b = 0) → (l.map c).sum = c a := by
  intro l
  induction l with
  | nil => intro c a h; simp at h
  | cons x xs ih =>
    intro c a hcount hzero
    by_cases hxa : x = a
    · subst hxa
      have hc0 : xs.count x = 0 := by
        have := List.count_cons_self x xs
        omega
      have hz : ∀ y ∈ xs.map c, y = 0 := by
        intro y hy
        obtain ⟨b, hb, rfl⟩ := List.mem_map.mp hy
        by_cases hbx : b = x
        · subst hbx
          exact absurd hb (List.count_eq_zero.mp hc0)
        · exact hzero b (List.mem_cons_of_mem _ hb) hbx
      simp only [List.map_cons, List.sum_cons]
      rw [List.sum_eq_zero hz]
      omega
    · have hcnt : xs.count a = 1 := by
        rw [List.count_cons_of_ne (fun h => hxa h.symm)] at hcount
        exact hcount
      simp only [List.map_cons, List.sum_cons]
      rw [hzero x (List.mem_cons_self x xs) hxa,
        ih c a hcnt (fun b hb hba => hzero b (List.mem_cons_of_mem _ hb) hba)]
      omega

/-- C1: running the cycle twice on the same upstream page (well-formed:
distinct non-empty ids, no resolution exception, downloads succeeding),
with the dedup store carried over from the first run, the second run
forwards zero posts (no send events at all), and every asset of every new
forwardable post is sent exactly once across the two runs. -/
theorem idempotent_cycle (file : List String) (uid : String) (page : Page)
    (tweets : List Tweet) (hue : uid ≠ "") (hd : page.data = some tweets)
    (hnodup : (tweets.map Tweet.id).Nodup)
    (hneid : ∀ t ∈ tweets, t.id ≠ "")
    (hok : ∀ t ∈ tweets, ∃ v, process_tweet t page = .ok v) :
    sends (check_and_forward_tweets (constOracle uid page)
      ⟨false, (check_and_forward_tweets (constOracle uid page)
        ⟨false, file⟩).world.file⟩).trace = [] ∧
    ∀ t ∈ tweets, t.id ∉ load_processed_tweets file →
      ∀ j, j < (resolvedAssets t page).length →
        countAsset ((check_and_forward_tweets (constOracle uid page)
            ⟨false, file⟩).trace ++
          (check_and_forward_tweets (constOracle uid page)
            ⟨false, (check_and_forward_tweets (constOracle uid page)
              ⟨false, file⟩).world.file⟩).trace) t.id j = 1 := by
  obtain ⟨res, hc, hiff⟩ := collect_ok page (load_processed_tweets file)
    (load_processed_tweets file) hok
  have hu1 : (constOracle uid page).userId = some uid := rfl
  have hf1 : (constOracle uid page).fetch
      (effSince (since_id_of (load_processed_tweets file))) = some page := rfl
  have hdl : ∀ u, (constOracle uid page).downloadOk u = true := fun u => rfl
  have hrb1 := runBody_collectOk file hu1 hue hf1 hd hc
  have hw1 : check_and_forward_tweets (constOracle uid page) ⟨false, file⟩ =
      ⟨(runBody (constOracle uid page) file).1,
       ⟨false, (runBody (constOracle uid page) file).2.1⟩,
       (runBody (constOracle uid page) file).2.2 ++ [Event.cleanupTemp]⟩ := by
    simp [check_and_forward_tweets]
  have hl1 : (⟨false, file⟩ : World).lock = false := rfl
  have hf1w : (constOracle uid page).fetch
      (effSince (since_id_of (load_processed_tweets
        (⟨false, file⟩ : World).file))) = some page := rfl
  have hsends1 := cycle_sends hl1 hu1 hue hf1w hd hok hdl
  by_cases hE : newFps page (load_processed_tweets file) tweets = []
  · -- no forwardable post: nothing is saved, and no asset exists to count
    have hfile1 : (check_and_forward_tweets (constOracle uid page)
        ⟨false, file⟩).world.file = file := by
      rw [hw1, hrb1]
      simp [hE]
    have hnone : ∀ t ∈ tweets,
        (if t.id ∈ load_processed_tweets file then none else fpOf page t) = none := by
      intro t ht
      have := List.filterMap_eq_nil_iff.mp hE
      exact this t ht
    have hzero : ∀ t ∈ tweets.reverse,
        tweetSends page (load_processed_tweets file) t = ([] : List Event) := by
      intro t ht
      have ht2 := List.mem_reverse.mp ht
      have h2 := hnone t ht2
      unfold tweetSends
      by_cases hm : t.id ∈ load_processed_tweets file
      · rw [if_pos hm]
      · rw [if_neg hm]
        rw [if_neg hm] at h2
        rw [h2]
    have hsnil : sends (check_and_forward_tweets (constOracle uid page)
        ⟨false, file⟩).trace = [] := by
      rw [hsends1, flatMap_congr hzero]
      simp
    constructor
    · rw [hfile1]
      exact hsnil
    · intro t ht hnot j hj
      cases hfp : fpOf page t with
      | none =>
        unfold resolvedAssets at hj
        rw [hfp] at hj
        simp at hj
      | some fp =>
        have h2 := hnone t ht
        rw [if_neg hnot, hfp] at h2
        cases h2
  · -- at least one forwardable post: the first run saves, the second skips all
    have hEb : (newFps page (load_processed_tweets file) tweets).isEmpty = false := by
      cases hx : newFps page (load_processed_tweets file) tweets with
      | nil => exact absurd hx hE
      | cons a l => rfl
    have hfile1 : (check_and_forward_tweets (constOracle uid page)
        ⟨false, file⟩).world.file = res := by
      rw [hw1, hrb1]
      simp [hEb]
    have hresne : ∀ x ∈ res, x ≠ "" := by
      intro x hx
      rcases (hiff x).mp hx with h | ⟨t, ht, h2, h3⟩
      · exact load_ne_empty x h
      · exact h3 ▸ hneid t ht
    have hmemres : ∀ t ∈ tweets, t.id ∈ load_processed_tweets res := by
      intro t ht
      have hid : t.id ∈ res := by
        by_cases hm : t.id ∈ load_processed_tweets file
        · exact (hiff t.id).mpr (Or.inl hm)
        · exact (hiff t.id).mpr (Or.inr ⟨t, ht, hm, rfl⟩)
      exact mem_load.mpr ⟨hid, hneid t ht⟩
    have hc2 := collect_all_skipped page (load_processed_tweets res)
      (load_processed_tweets res) hmemres
    have hf2 : (constOracle uid page).fetch
        (effSince (since_id_of (load_processed_tweets res))) = some page := rfl
    have hrb2 := runBody_collectOk res hu1 hue hf2 hd hc2
    have hw2 : check_and_forward_tweets (constOracle uid page) ⟨false, res⟩ =
        ⟨(runBody (constOracle uid page) res).1,
         ⟨false, (runBody (constOracle uid page) res).2.1⟩,
         (runBody (constOracle uid page) res).2.2 ++ [Event.cleanupTemp]⟩ := by
      simp [check_and_forward_tweets]
    have hsnil2 : sends (check_and_forward_tweets (constOracle uid page)
        ⟨false, res⟩).trace = [] := by
      rw [hw2, hrb2]
      simp [sends, sendLoop, isSendEvent]
    constructor
    · rw [hfile1]
      exact hsnil2
    · intro t ht hnot j hj
      rw [hfile1, countAsset_append]
      have hcnt2 : countAsset (check_and_forward_tweets (constOracle uid page)
          ⟨false, res⟩).trace t.id j = 0 := by
        rw [countAsset_sends, hsnil2]
        rfl
      rw [hcnt2]
      have hcnt1 : countAsset (check_and_forward_tweets (constOracle uid page)
          ⟨false, file⟩).trace t.id j = 1 := by
        rw [countAsset_sends, hsends1, countP_flatMap]
        cases hfp : fpOf page t with
        | none =>
          unfold resolvedAssets at hj
          rw [hfp] at hj
          simp at hj
        | some fp =>
          have hcnt : tweets.reverse.count t = 1 := by
            rw [List.count_reverse]
            exact List.count_eq_one_of_mem (List.Nodup.of_map _ hnodup) ht
          rw [sum_single tweets.reverse _ t hcnt ?zero]
          case zero =>
            intro b hb hbt
            have hb2 := List.mem_reverse.mp hb
            have hbid : b.id ≠ t.id := by
              intro heq
              exact hbt (List.inj_on_of_nodup_map hnodup hb2 ht heq)
            unfold tweetSends
            by_cases hbm : b.id ∈ load_processed_tweets file
            · rw [if_pos hbm]
              rfl
            · rw [if_neg hbm]
              cases hbfp : fpOf page b with
              | none => rfl
              | some fpb =>
                have hfpbid : fpb.id = b.id :=
                  process_tweet_id (fpOf_some_process hbfp)
                rw [countP_assetSends]
                rw [if_neg]
                rintro ⟨h4, -⟩
                exact hbid (hfpbid ▸ h4)
          unfold tweetSends
          rw [if_neg hnot, hfp, countP_assetSends]
          have hfpid : fp.id = t.id := process_tweet_id (fpOf_some_process hfp)
          have hlen : fp.media_urls.length = (resolvedAssets t page).length := by
            unfold resolvedAssets
            rw [hfp]
          rw [if_pos ⟨hfpid, Nat.zero_le j, by omega⟩]
      rw [hcnt1]

def c1page : Page :=
  ⟨some [⟨"7", "a", none, some ["k1"]⟩],
   some [⟨"k1", "photo", some "pu", none⟩]⟩

/-- Witness for idempotent_cycle at a concrete one-post page: the second
run sends nothing and the single asset is sent exactly once in total. -/
theorem idempotent_cycle_witness :
    sends (check_and_forward_tweets (constOracle "u" c1page)
      ⟨false, (check_and_forward_tweets (constOracle "u" c1page)
        ⟨false, []⟩).world.file⟩).trace = [] ∧
    countAsset ((check_and_forward_tweets (constOracle "u" c1page)
        ⟨false, []⟩).trace ++
      (check_and_forward_tweets (constOracle "u" c1page)
        ⟨false, (check_and_forward_tweets (constOracle "u" c1page)
          ⟨false, []⟩).world.file⟩).trace) "7" 0 = 1 := by
  have hok : ∀ t ∈ [(⟨"7", "a", none, some ["k1"]⟩ : Tweet)],
      ∃ v, process_tweet t c1page = .ok v := by
    intro t ht
    simp only [List.mem_cons, List.not_mem_nil, or_false] at ht
    subst ht
    exact ⟨some ⟨"7", "a", [⟨"photo", "pu"⟩]⟩, by decide⟩
  have h := idempotent_cycle [] "u" c1page
    [⟨"7", "a", none, some ["k1"]⟩] (by decide) rfl (by decide) (by decide) hok
  exact ⟨h.1, h.2 ⟨"7", "a", none, some ["k1"]⟩ (by decide) (by decide) 0 (by decide)⟩

end TwitterTelegramBot
